import Mathlib

/-!
Verification of the chunked gzip-decode orchestrator of `src/gstplugin.c`
(`decode_message`, `gst_gzdec_process_data`), against a shallow embedding.

The low-level decompression engine (zlib's `inflate`) is an external
collaborator, not part of this repository; it is modelled from the spec's
Decompression Session contract (§4.1): each feed makes a batch of decoded
bytes available, the engine drains them in bursts bounded by the supplied
output space, and signals `Z_STREAM_END` on the call that hands out the
last byte once the logical end of the compressed stream has been reached.
An oracle (`FeedEffect` per feed) supplies what each feed decodes to,
whether it contains the logical stream end, and whether some `inflate`
call of that feed reports a fatal condition.  Everything else — slicing,
the drain loop, the fragment chain, the error switch, the final copy —
is translated directly from the C source.
-/

namespace Gzdec

/-- `CHUNK` from `gstgzdec.h`: the unit of decoding, 256 KiB. -/
def CHUNK : Nat := 1024 * 256

/-- zlib return code `Z_OK` (zlib.h). -/
def Z_OK : Int := 0

/-- zlib return code `Z_STREAM_END`. -/
def Z_STREAM_END : Int := 1

/-- zlib return code `Z_NEED_DICT`. -/
def Z_NEED_DICT : Int := 2

/-- zlib return code `Z_STREAM_ERROR`. -/
def Z_STREAM_ERROR : Int := -2

/-- zlib return code `Z_DATA_ERROR`. -/
def Z_DATA_ERROR : Int := -3

/-- zlib return code `Z_MEM_ERROR`. -/
def Z_MEM_ERROR : Int := -4

/-- Modelled from the spec: the effect of presenting one input slice to the
Decompression Session (§4.1 `feed`).  `out` is the batch of decoded bytes this
feed makes available for draining, `isEnd` records whether the logical end of
the compressed stream lies in the bytes fed so far, and `fatalAt = some (n, c)`
makes the `n`-th `inflate` call of this feed's drain report code `c` (used to
model corrupt-stream / dictionary / memory / state errors). -/
structure FeedEffect where
  out : List Nat
  isEnd : Bool
  fatalAt : Option (Nat × Int)
deriving DecidableEq

/-- The code injected by the oracle at drain-call `k`, if any. -/
def injected (fa : Option (Nat × Int)) (k : Nat) : Option Int :=
  match fa with
  | some (n, c) => if k = n then some c else none
  | none => none

/-- The return codes caught by the `switch` in `decode_message`
(`Z_NEED_DICT`, `Z_DATA_ERROR`, `Z_MEM_ERROR`, `Z_STREAM_ERROR`). -/
def isFatalCode (c : Int) : Bool :=
  c = Z_NEED_DICT || c = Z_DATA_ERROR || c = Z_MEM_ERROR || c = Z_STREAM_ERROR

/-- Result of the inner drain loop (`do { ... } while (stream.avail_out == 0)`)
for one feed.  `fatal c fulls calls`: an `inflate` call hit the error `switch`
and the function returned `c` at once; `fulls` are the fragments completed
before that call and `calls` the number of `inflate` calls made (each call
allocates one fragment data buffer first, `outdata->data = g_malloc0 (CHUNK)`).
`done ret fulls cur pendLeft calls`: the loop exited normally with final
return code `ret`, completed fragments `fulls`, the partially filled current
fragment `cur`, and `pendLeft` the engine output not yet handed out. -/
inductive DrainOut where
  | fatal (code : Int) (fulls : List (List Nat)) (calls : Nat)
  | done (ret : Int) (fulls : List (List Nat)) (cur : List Nat)
      (pendLeft : List Nat) (calls : Nat)
deriving DecidableEq

/-- The inner drain loop of `decode_message` (gstplugin.c:291-321), driven by
the spec-modelled engine: each `inflate` call hands out up to `CHUNK` pending
bytes (`stream.avail_out = CHUNK`), the error `switch` maps `Z_NEED_DICT` to
`Z_DATA_ERROR` (fallthrough) and aborts on the four fatal codes, a full output
buffer (`stream.avail_out == 0`) closes the current fragment and loops, and
the call that empties the pending output once the stream end was reached
returns `Z_STREAM_END`. -/
def drain (fa : Option (Nat × Int)) (k : Nat) (pend : List Nat) (ended : Bool)
    (fulls : List (List Nat)) (calls : Nat) : DrainOut :=
  match injected fa k with
  | some c =>
    if isFatalCode c then
      DrainOut.fatal (if c = Z_NEED_DICT then Z_DATA_ERROR else c) fulls (calls + 1)
    else
      -- a code the switch does not catch: the call produced no output,
      -- `avail_out` stays nonzero, the loop exits with `ret = c`
      DrainOut.done c fulls [] pend (calls + 1)
  | none =>
    if h : CHUNK ≤ pend.length then
      -- `processed == CHUNK`, `avail_out == 0`: close the fragment, loop
      drain fa (k + 1) (pend.drop CHUNK) ended (fulls ++ [pend.take CHUNK]) (calls + 1)
    else
      -- short burst: `avail_out != 0` ends the loop
      DrainOut.done (if ended then Z_STREAM_END else Z_OK) fulls pend [] (calls + 1)
termination_by pend.length
decreasing_by
  simp only [List.length_drop]
  have : 0 < CHUNK := by decide
  omega

/-- State threaded through the outer `do { ... } while (ret != Z_STREAM_END)`
loop of `decode_message`: the engine's pending output and end flag, the
fragments already advanced past (`doneFrags`), the caller's `*outlen`
accumulator, ghost allocation counters for `ll_buffer` nodes and fragment
data buffers, the number of input slices fed, and the current value of the
local variable `ret`. -/
structure LoopSt where
  pend : List Nat
  ended : Bool
  doneFrags : List (List Nat)
  outlen : Nat
  nodes : Nat
  datas : Nat
  fed : Nat
  ret : Int
deriving DecidableEq

/-- Outcome of the outer loop: `fatal c st` for the early `return ret` inside
the error `switch`, or `finished ret chain st` where `chain` is the full
fragment chain (`head` through the current node) walked by the final copy. -/
inductive LoopOut where
  | fatal (code : Int) (st : LoopSt)
  | finished (ret : Int) (chain : List (List Nat)) (st : LoopSt)
deriving DecidableEq

/-- The outer loop of `decode_message` (gstplugin.c:273-322): slice off up to
`CHUNK` input bytes, break when no input is available (`stream.avail_in == 0`),
feed the slice and drain it, abort on a fatal code, advance to a fresh
fragment when `ret != Z_STREAM_END`, and stop on `Z_STREAM_END`. -/
def decodeLoop (eff : Nat → FeedEffect) (remainder : List Nat) (st : LoopSt) :
    LoopOut :=
  if (remainder.take CHUNK).isEmpty then
    -- `if (stream.avail_in == 0) break;` — the current node is still empty
    LoopOut.finished st.ret (st.doneFrags ++ [[]]) st
  else
    match drain (eff st.fed).fatalAt 0 (st.pend ++ (eff st.fed).out)
        (st.ended || (eff st.fed).isEnd) [] 0 with
    | DrainOut.fatal c fulls calls =>
        -- `(void)inflateEnd(&stream); return ret;` — nothing is freed
        LoopOut.fatal c
          { pend := [], ended := st.ended || (eff st.fed).isEnd,
            doneFrags := st.doneFrags ++ fulls,
            outlen := st.outlen + (fulls.map List.length).sum,
            nodes := st.nodes + fulls.length,
            datas := st.datas + calls,
            fed := st.fed + 1, ret := c }
    | DrainOut.done r fulls cur pendLeft calls =>
        if r = Z_STREAM_END then
          LoopOut.finished r (st.doneFrags ++ fulls ++ [cur])
            { pend := pendLeft, ended := st.ended || (eff st.fed).isEnd,
              doneFrags := st.doneFrags ++ fulls,
              outlen := st.outlen + (fulls.map List.length).sum + cur.length,
              nodes := st.nodes + fulls.length,
              datas := st.datas + calls,
              fed := st.fed + 1, ret := r }
        else
          -- `if (ret != Z_STREAM_END) { outdata->next = g_malloc0 (...); ... }`
          decodeLoop eff (remainder.drop CHUNK)
            { pend := pendLeft, ended := st.ended || (eff st.fed).isEnd,
              doneFrags := st.doneFrags ++ fulls ++ [cur],
              outlen := st.outlen + (fulls.map List.length).sum + cur.length,
              nodes := st.nodes + fulls.length + 1,
              datas := st.datas + calls,
              fed := st.fed + 1, ret := r }
termination_by remainder.length
decreasing_by
  simp only [List.length_drop]
  have h0 : 0 < CHUNK := by decide
  cases remainder with
  | nil => simp_all
  | cons a l => simp only [List.length_cons]; omega

/-- The state of `decode_message`'s locals on entry to the outer loop:
`head` already allocated (`outdata = g_malloc0 (sizeof(struct ll_buffer))`),
`*outlen` holding the caller-supplied value `outlen0`, and the local `ret`
holding its indeterminate initial value `retInit` (the C declares `gint ret;`
without initializing it). -/
def decodeInit (outlen0 : Nat) (retInit : Int) : LoopSt :=
  { pend := [], ended := false, doneFrags := [], outlen := outlen0,
    nodes := 1, datas := 0, fed := 0, ret := retInit }

/-- Observable outcome of one `decode_message` call.  `outmsg`/`outlen` are
the values stored through the out-parameters (`outmsg = none` when the fatal
path returns before `*outmsg` is written); `chain` is the fragment chain
built during the loop (ghost); `fragsLeaked`/`dataLeaked` count `ll_buffer`
nodes and fragment data buffers allocated but never freed;`sessionClosed`
records whether `inflateEnd` was called inside `decode_message`. -/
structure DecodeResult where
  ret : Int
  outmsg : Option (List Nat)
  outlen : Nat
  chain : List (List Nat)
  slicesFed : Nat
  sessionClosed : Bool
  fragsLeaked : Nat
  dataLeaked : Nat
deriving DecidableEq

/-- `decode_message` (gstplugin.c:259-341) over the spec-modelled engine
`eff`.  On the fatal path the function returns the mapped code directly:
`*outmsg` is never written and no node or data buffer is freed.  Otherwise
the final copy allocates `g_malloc0 (*outlen)` (zero-filled), walks the chain
copying each fragment's bytes in order from offset 0, and frees every node
and its data pointer (`g_free` on the final node's possibly-NULL data is a
no-op), so the leak counts are the allocation counts minus what the walk
frees. -/
def decode_message (eff : Nat → FeedEffect) (srcmsg : List Nat)
    (outlen0 : Nat) (retInit : Int) : DecodeResult :=
  match decodeLoop eff srcmsg (decodeInit outlen0 retInit) with
  | LoopOut.fatal c st =>
      { ret := c, outmsg := none, outlen := st.outlen, chain := st.doneFrags,
        slicesFed := st.fed, sessionClosed := true,
        fragsLeaked := st.nodes, dataLeaked := st.datas }
  | LoopOut.finished r chain st =>
      { ret := if r = Z_STREAM_END then Z_OK else Z_DATA_ERROR,
        outmsg := some (chain.flatten ++ List.replicate (st.outlen - chain.flatten.length) 0),
        outlen := st.outlen, chain := chain, slicesFed := st.fed,
        sessionClosed := false,
        fragsLeaked := st.nodes - chain.length,
        dataLeaked := 0 }

/-- Observable outcome of `gst_gzdec_process_data`: the wrapped output
buffer data and length, and the contents of the mapped input buffer after
the call returns. -/
structure ProcessResult where
  outbufData : Option (List Nat)
  outbufLen : Nat
  srcAfter : List Nat
deriving DecidableEq

/-- `gst_gzdec_process_data` (gstplugin.c:342-367): maps the input buffer,
calls `decode_message` with `decodedmsg = NULL` and `decodedmsglen = 0`,
wraps the result, then executes `memset (info.data, 0xff, info.size)` on the
mapped input data before unmapping it. -/
def gst_gzdec_process_data (eff : Nat → FeedEffect) (retInit : Int)
    (buf : List Nat) : ProcessResult :=
  let r := decode_message eff buf 0 retInit
  { outbufData := r.outmsg, outbufLen := r.outlen,
    srcAfter := List.replicate buf.length 255 }

/-- Number of `CHUNK`-sized input slices `decode_message` partitions a
nonempty input into (zero for empty input, where the loop breaks at once). -/
def numSlices (l : List Nat) : Nat :=
  if l.isEmpty then 0
  else if l.length ≤ CHUNK then 1
  else 1 + numSlices (l.drop CHUNK)
termination_by l.length
decreasing_by
  simp only [List.length_drop]
  have h0 : 0 < CHUNK := by decide
  cases l with
  | nil => simp_all
  | cons a t => simp only [List.length_cons]; omega

theorem chunk_pos : 0 < CHUNK := by decide

/-- Shape of a normal drain exit: the completed fragments extend the
accumulator by chunks of exactly `CHUNK` bytes, the completed fragments,
the current fragment and the unconsumed pending output reassemble the
pending output the drain started from, and the current fragment is
strictly shorter than `CHUNK`. -/
theorem drain_done_spec (fa : Option (Nat × Int)) (k : Nat) (pend : List Nat)
    (ended : Bool) (fulls : List (List Nat)) (calls : Nat) :
    ∀ r fs cur pl cl,
      drain fa k pend ended fulls calls = DrainOut.done r fs cur pl cl →
      ∃ t, fs = fulls ++ t ∧ t.flatten ++ (cur ++ pl) = pend ∧
        (∀ f ∈ t, f.length = CHUNK) ∧ cur.length < CHUNK := by
  induction k, pend, ended, fulls, calls using drain.induct fa with
  | case1 k pend ended fulls calls c hinj hfat =>
    intro r fs cur pl cl h
    rw [drain] at h
    simp only [hinj] at h
    rw [if_pos hfat] at h
    exact DrainOut.noConfusion h
  | case2 k pend ended fulls calls c hinj hfat =>
    intro r fs cur pl cl h
    rw [drain] at h
    simp only [hinj] at h
    rw [if_neg hfat] at h
    injection h with h0 h1 h2 h3 h4
    exact ⟨[], by simp [h1], by simp [← h2, ← h3], by simp,
      by rw [← h2]; exact chunk_pos⟩
  | case3 k pend ended fulls calls hinj hle ih =>
    intro r fs cur pl cl h
    rw [drain] at h
    simp only [hinj] at h
    rw [dif_pos hle] at h
    obtain ⟨t, ht1, ht2, ht3, ht4⟩ := ih r fs cur pl cl h
    refine ⟨pend.take CHUNK :: t, by simp [ht1], ?_, ?_, ht4⟩
    · simpa [List.append_assoc] using congrArg (pend.take CHUNK ++ ·) ht2
    · intro f hf
      rcases List.mem_cons.mp hf with hf | hf
      · subst hf; simp only [List.length_take]; omega
      · exact ht3 _ hf
  | case4 k pend ended fulls calls hinj hle =>
    intro r fs cur pl cl h
    rw [drain] at h
    simp only [hinj] at h
    rw [dif_neg hle] at h
    injection h with h0 h1 h2 h3 h4
    exact ⟨[], by simp [h1], by simp [← h2, ← h3], by simp,
      by rw [← h2]; omega⟩

/-- Shape of a fatal drain exit: the abort comes from an oracle-injected
code caught by the error `switch`, and `Z_NEED_DICT` is surfaced as
`Z_DATA_ERROR` (the fallthrough in the `switch`). -/
theorem drain_fatal_spec (fa : Option (Nat × Int)) (k : Nat) (pend : List Nat)
    (ended : Bool) (fulls : List (List Nat)) (calls : Nat) :
    ∀ c fs cl, drain fa k pend ended fulls calls = DrainOut.fatal c fs cl →
      ∃ n c0, fa = some (n, c0) ∧ isFatalCode c0 = true ∧
        c = if c0 = Z_NEED_DICT then Z_DATA_ERROR else c0 := by
  induction k, pend, ended, fulls, calls using drain.induct fa with
  | case1 k pend ended fulls calls c hinj hfat =>
    intro c' fs cl h
    rw [drain] at h
    simp only [hinj] at h
    rw [if_pos hfat] at h
    injection h with h0 h1 h2
    obtain ⟨n, c0, hfa, hc⟩ : ∃ n c0, fa = some (n, c0) ∧ c0 = c := by
      cases fa with
      | none => simp [injected] at hinj
      | some p =>
        obtain ⟨n, c0⟩ := p
        simp only [injected] at hinj
        by_cases hkn : k = n
        · rw [if_pos hkn] at hinj
          exact ⟨n, c0, rfl, Option.some.inj hinj⟩
        · rw [if_neg hkn] at hinj; exact absurd hinj (by simp)
    refine ⟨n, c0, hfa, by rw [hc]; exact hfat, ?_⟩
    rw [← h0, hc]
  | case2 k pend ended fulls calls c hinj hfat =>
    intro c' fs cl h
    rw [drain] at h
    simp only [hinj] at h
    rw [if_neg hfat] at h
    exact DrainOut.noConfusion h
  | case3 k pend ended fulls calls hinj hle ih =>
    intro c' fs cl h
    rw [drain] at h
    simp only [hinj] at h
    rw [dif_pos hle] at h
    exact ih c' fs cl h
  | case4 k pend ended fulls calls hinj hle =>
    intro c' fs cl h
    rw [drain] at h
    simp only [hinj] at h
    rw [dif_neg hle] at h
    exact DrainOut.noConfusion h

/-- With no injected code the drain always exits normally: it hands out the
whole pending output, returns `Z_STREAM_END` exactly when the stream end has
been reached, and leaves nothing pending. -/
theorem drain_none_shape (pend : List Nat) (k : Nat) (ended : Bool)
    (fulls : List (List Nat)) (calls : Nat) :
    ∃ t cur cl, drain none k pend ended fulls calls =
        DrainOut.done (if ended then Z_STREAM_END else Z_OK) (fulls ++ t) cur [] cl ∧
      t.flatten ++ cur = pend := by
  induction k, pend, ended, fulls, calls using drain.induct none with
  | case1 k pend ended fulls calls c hinj hfat => simp [injected] at hinj
  | case2 k pend ended fulls calls c hinj hfat => simp [injected] at hinj
  | case3 k pend ended fulls calls hinj hle ih =>
    obtain ⟨t, cur, cl, h1, h2⟩ := ih
    refine ⟨pend.take CHUNK :: t, cur, cl, ?_, ?_⟩
    · rw [drain]; simp only [hinj]; rw [dif_pos hle, h1]; simp
    · simp only [List.flatten_cons, List.append_assoc, h2, List.take_append_drop]
  | case4 k pend ended fulls calls hinj hle =>
    exact ⟨[], pend, calls + 1, by rw [drain]; simp only [hinj]; rw [dif_neg hle]; simp, by simp⟩

theorem takeChunk_isEmpty (l : List Nat) : (l.take CHUNK).isEmpty = true ↔ l = [] := by
  cases l with
  | nil => simp
  | cons a t =>
    simp only [List.isEmpty_iff, List.take_eq_nil_iff]
    constructor
    · rintro (h | h)
      · exact absurd h (by have := chunk_pos; omega)
      · exact absurd h (by simp)
    · intro h; exact absurd h (by simp)

theorem numSlices_pos (l : List Nat) (h : l ≠ []) : 1 ≤ numSlices l := by
  rw [numSlices]
  rw [if_neg (by simpa using h)]
  split <;> omega

theorem numSlices_small (l : List Nat) (h : l ≠ []) (h2 : l.length ≤ CHUNK) :
    numSlices l = 1 := by
  rw [numSlices, if_neg (by simpa using h), if_pos h2]

theorem numSlices_big (l : List Nat) (h2 : CHUNK < l.length) :
    numSlices l = 1 + numSlices (l.drop CHUNK) := by
  have hne : l ≠ [] := by
    intro h; rw [h] at h2; simp at h2
  rw [numSlices, if_neg (by simpa using hne), if_neg (by omega)]

theorem numSlices_le_one (l : List Nat) (h2 : l.length ≤ CHUNK) :
    numSlices l ≤ 1 := by
  rw [numSlices]
  split <;> omega

/-- Output accounting of the outer loop: on a normal exit the bytes of the
final chain extend the bytes of the fragments already advanced past, and
`*outlen` grows by exactly the number of new bytes. -/
theorem decodeLoop_acct (eff : Nat → FeedEffect) (remainder : List Nat)
    (st : LoopSt) :
    ∀ q ch st', decodeLoop eff remainder st = LoopOut.finished q ch st' →
      ∃ t, ch.flatten = st.doneFrags.flatten ++ t ∧
        st'.outlen = st.outlen + t.length := by
  induction remainder, st using decodeLoop.induct eff with
  | case1 remainder st hemp =>
    intro q ch st' h
    rw [decodeLoop, if_pos hemp] at h
    injection h with h0 h1 h2
    exact ⟨[], by rw [← h1]; simp, by rw [← h2]; simp⟩
  | case2 remainder st hemp c fulls calls hdrain =>
    intro q ch st' h
    rw [decodeLoop, if_neg hemp] at h
    simp only [hdrain] at h
    exact LoopOut.noConfusion h
  | case3 remainder st hemp fulls cur pl calls hdrain =>
    intro q ch st' h
    rw [decodeLoop, if_neg hemp] at h
    simp only [hdrain, if_true] at h
    injection h with h0 h1 h2
    refine ⟨fulls.flatten ++ cur, ?_, ?_⟩
    · rw [← h1]; simp
    · rw [← h2]; simp only [List.length_append, List.length_flatten]; omega
  | case4 remainder st hemp r fulls cur pl calls hdrain hr ih =>
    intro q ch st' h
    rw [decodeLoop, if_neg hemp] at h
    simp only [hdrain] at h
    rw [if_neg hr] at h
    obtain ⟨t, ht1, ht2⟩ := ih q ch st' h
    refine ⟨fulls.flatten ++ cur ++ t, ?_, ?_⟩
    · rw [ht1]; simp
    · rw [ht2]
      simp only [List.length_append, List.length_flatten]
      omega

/-- Node accounting of the outer loop: on a normal exit the number of
`ll_buffer` nodes allocated equals the length of the chain the final copy
walks and frees, provided it did on entry (`head` plus the advanced-past
nodes). -/
theorem decodeLoop_nodes (eff : Nat → FeedEffect) (remainder : List Nat)
    (st : LoopSt) :
    ∀ q ch st', decodeLoop eff remainder st = LoopOut.finished q ch st' →
      st.nodes = st.doneFrags.length + 1 → st'.nodes = ch.length := by
  induction remainder, st using decodeLoop.induct eff with
  | case1 remainder st hemp =>
    intro q ch st' h hn
    rw [decodeLoop, if_pos hemp] at h
    injection h with h0 h1 h2
    rw [← h2, ← h1, hn]; simp
  | case2 remainder st hemp c fulls calls hdrain =>
    intro q ch st' h hn
    rw [decodeLoop, if_neg hemp] at h
    simp only [hdrain] at h
    exact LoopOut.noConfusion h
  | case3 remainder st hemp fulls cur pl calls hdrain =>
    intro q ch st' h hn
    rw [decodeLoop, if_neg hemp] at h
    simp only [hdrain, if_true] at h
    injection h with h0 h1 h2
    rw [← h2, ← h1]
    simp [hn]
    omega
  | case4 remainder st hemp r fulls cur pl calls hdrain hr ih =>
    intro q ch st' h hn
    rw [decodeLoop, if_neg hemp] at h
    simp only [hdrain] at h
    rw [if_neg hr] at h
    refine ih q ch st' h ?_
    simp [hn]
    omega

/-- If the oracle never injects a code and never reaches the stream end, the
outer loop exits normally with a final `ret` different from `Z_STREAM_END`
(provided `ret` did not already hold `Z_STREAM_END`). -/
theorem decodeLoop_no_end (eff : Nat → FeedEffect)
    (hfa : ∀ j, (eff j).fatalAt = none)
    (hend : ∀ j, (eff j).isEnd = false) (remainder : List Nat) (st : LoopSt) :
    ∀ q ch st', st.ended = false → st.ret ≠ Z_STREAM_END →
      decodeLoop eff remainder st = LoopOut.finished q ch st' →
      q ≠ Z_STREAM_END := by
  induction remainder, st using decodeLoop.induct eff with
  | case1 remainder st hemp =>
    intro q ch st' hended hret h
    rw [decodeLoop, if_pos hemp] at h
    injection h with h0 h1 h2
    rw [← h0]; exact hret
  | case2 remainder st hemp c fulls calls hdrain =>
    intro q ch st' hended hret h
    obtain ⟨n, c0, hfa', -, -⟩ := drain_fatal_spec _ _ _ _ _ _ _ _ _ hdrain
    rw [hfa st.fed] at hfa'
    exact Option.noConfusion hfa'
  | case3 remainder st hemp fulls cur pl calls hdrain =>
    intro q ch st' hended hret h
    rw [hfa st.fed] at hdrain
    rw [hended, hend st.fed] at hdrain
    obtain ⟨t, cur', cl', h1, -⟩ :=
      drain_none_shape (st.pend ++ (eff st.fed).out) 0 (false || false) [] 0
    rw [h1] at hdrain
    injection hdrain with e0 e1 e2 e3 e4
    exact absurd e0 (by decide)
  | case4 remainder st hemp r fulls cur pl calls hdrain hr ih =>
    intro q ch st' hended hret h
    rw [decodeLoop, if_neg hemp] at h
    simp only [hdrain] at h
    rw [if_neg hr] at h
    exact ih q ch st' (by simp [hended, hend st.fed]) hr h

/-- The engine-correctness run behind the round-trip property: if the oracle
injects no codes and signals the stream end exactly at the feed of the last
input slice, the outer loop exits with `Z_STREAM_END` and the final chain's
bytes extend the already-collected bytes by exactly the concatenation of all
the feeds' outputs, in order. -/
theorem decodeLoop_complete (eff : Nat → FeedEffect) (remainder : List Nat)
    (st : LoopSt) :
    remainder ≠ [] → st.pend = [] → st.ended = false →
    (∀ j, (eff (st.fed + j)).fatalAt = none) →
    (∀ j, ((eff (st.fed + j)).isEnd = true ↔ j = numSlices remainder - 1)) →
    ∃ ch st', decodeLoop eff remainder st = LoopOut.finished Z_STREAM_END ch st' ∧
      ch.flatten = st.doneFrags.flatten ++
        ((List.range (numSlices remainder)).map fun j => (eff (st.fed + j)).out).flatten := by
  induction remainder, st using decodeLoop.induct eff with
  | case1 remainder st hemp =>
    intro hrem hpend hended hfa hend
    exact absurd ((takeChunk_isEmpty remainder).mp hemp) hrem
  | case2 remainder st hemp c fulls calls hdrain =>
    intro hrem hpend hended hfa hend
    obtain ⟨n, c0, hfa', -, -⟩ := drain_fatal_spec _ _ _ _ _ _ _ _ _ hdrain
    have hz := hfa 0
    rw [Nat.add_zero] at hz
    rw [hz] at hfa'
    exact Option.noConfusion hfa'
  | case3 remainder st hemp fulls cur pl calls hdrain =>
    intro hrem hpend hended hfa hend
    have hfa0 : (eff st.fed).fatalAt = none := by simpa using hfa 0
    have hd2 := hdrain
    rw [hfa0, hpend, hended] at hd2
    simp only [List.nil_append, Bool.false_or] at hd2
    obtain ⟨t, cur', cl', h1, h2⟩ :=
      drain_none_shape ((eff st.fed).out) 0 ((eff st.fed).isEnd) [] 0
    rw [h1] at hd2
    injection hd2 with e0 e1 e2 e3 e4
    have hm : numSlices remainder = 1 := by
      have hEnd : (eff st.fed).isEnd = true := by
        by_contra hB
        rw [Bool.not_eq_true] at hB
        rw [hB] at e0
        exact absurd e0 (by decide)
      have h0 := (hend 0).mp (by simpa using hEnd)
      have hp := numSlices_pos remainder hrem
      omega
    refine ⟨st.doneFrags ++ fulls ++ [cur],
      { pend := pl, ended := st.ended || (eff st.fed).isEnd,
        doneFrags := st.doneFrags ++ fulls,
        outlen := st.outlen + (fulls.map List.length).sum + cur.length,
        nodes := st.nodes + fulls.length,
        datas := st.datas + calls,
        fed := st.fed + 1, ret := Z_STREAM_END }, ?_, ?_⟩
    · rw [decodeLoop, if_neg hemp]
      simp only [hdrain, if_true]
    · rw [hm]
      have hf : fulls = t := by simpa using e1.symm
      have hc : cur = cur' := e2.symm
      have hr1 : List.range 1 = [0] := rfl
      rw [hf, hc, hr1]
      simp only [List.map_cons, List.map_nil, List.flatten_cons,
        List.flatten_nil, List.append_nil, Nat.add_zero, List.flatten_append,
        List.append_assoc]
      rw [h2]
  | case4 remainder st hemp r fulls cur pl calls hdrain hr ih =>
    intro hrem hpend hended hfa hend
    have hfa0 : (eff st.fed).fatalAt = none := by simpa using hfa 0
    have hd2 := hdrain
    rw [hfa0, hpend, hended] at hd2
    simp only [List.nil_append, Bool.false_or] at hd2
    obtain ⟨t, cur', cl', h1, h2⟩ :=
      drain_none_shape ((eff st.fed).out) 0 ((eff st.fed).isEnd) [] 0
    rw [h1] at hd2
    injection hd2 with e0 e1 e2 e3 e4
    have hEnd : (eff st.fed).isEnd = false := by
      by_contra hB
      rw [Bool.not_eq_false] at hB
      rw [hB] at e0
      simp only [if_true] at e0
      exact hr e0.symm
    have hp := numSlices_pos remainder hrem
    have hm2 : 2 ≤ numSlices remainder := by
      have h0 := hend 0
      rw [Nat.add_zero] at h0
      rcases Nat.lt_or_ge (numSlices remainder) 2 with hlt | hge
      · have hz : (0 : Nat) = numSlices remainder - 1 := by omega
        have hB := h0.mpr hz
        rw [hEnd] at hB
        exact Bool.noConfusion hB
      · exact hge
    have hbig : CHUNK < remainder.length := by
      by_contra hB
      push_neg at hB
      have := numSlices_le_one remainder hB
      omega
    have hdropne : remainder.drop CHUNK ≠ [] := by
      intro hB
      have hlen := congrArg List.length hB
      rw [List.length_drop] at hlen
      simp only [List.length_nil] at hlen
      omega
    have hnum : numSlices remainder = 1 + numSlices (remainder.drop CHUNK) :=
      numSlices_big remainder hbig
    have hnd : 1 ≤ numSlices (remainder.drop CHUNK) := numSlices_pos _ hdropne
    have hfa' : ∀ j, (eff (st.fed + 1 + j)).fatalAt = none := by
      intro j
      have h := hfa (1 + j)
      rwa [(show st.fed + (1 + j) = st.fed + 1 + j by omega)] at h
    have hend' : ∀ j, ((eff (st.fed + 1 + j)).isEnd = true ↔
        j = numSlices (remainder.drop CHUNK) - 1) := by
      intro j
      have h := hend (1 + j)
      rw [(show st.fed + (1 + j) = st.fed + 1 + j by omega)] at h
      rw [h]
      omega
    have hpend1 : pl = [] := e3.symm
    have hended1 : (st.ended || (eff st.fed).isEnd) = false := by
      simp [hended, hEnd]
    obtain ⟨ch, st', hLoop, hFlat⟩ := ih hdropne hpend1 hended1 hfa' hend'
    refine ⟨ch, st', ?_, ?_⟩
    · rw [decodeLoop, if_neg hemp]
      simp only [hdrain]
      rw [if_neg hr]
      exact hLoop
    · rw [hFlat, hnum]
      have hrange : List.range (1 + numSlices (remainder.drop CHUNK)) =
          0 :: (List.range (numSlices (remainder.drop CHUNK))).map Nat.succ := by
        rw [Nat.add_comm]
        exact List.range_succ_eq_map _
      rw [hrange]
      simp only [List.map_cons, List.map_map, List.flatten_cons, Nat.add_zero]
      have hmap : ((List.range (numSlices (remainder.drop CHUNK))).map
            ((fun j => (eff (st.fed + j)).out) ∘ Nat.succ)) =
          ((List.range (numSlices (remainder.drop CHUNK))).map
            fun j => (eff (st.fed + 1 + j)).out) := by
        refine List.map_congr_left ?_
        intro a ha
        simp only [Function.comp_apply]
        rw [(show st.fed + Nat.succ a = st.fed + 1 + a by omega)]
      rw [hmap]
      have hout : (eff st.fed).out = fulls.flatten ++ cur := by
        have hf : fulls = t := by simpa using e1.symm
        have hc : cur = cur' := e2.symm
        rw [hf, hc]
        exact h2.symm
      rw [hout]
      simp only [List.flatten_append, List.flatten_cons, List.flatten_nil,
        List.append_nil, List.append_assoc]

/-- Surface of `decode_message` when the outer loop exits normally: the final
copy builds `*outmsg` from the chain into the `g_malloc0 (*outlen)` buffer and
frees every node, and the return value collapses to `Z_OK` or `Z_DATA_ERROR`
(gstplugin.c:324-340). -/
theorem decode_message_finished (eff : Nat → FeedEffect) (src : List Nat)
    (outlen0 : Nat) (retInit : Int) (q : Int) (ch : List (List Nat)) (st' : LoopSt)
    (h : decodeLoop eff src (decodeInit outlen0 retInit) = LoopOut.finished q ch st') :
    decode_message eff src outlen0 retInit =
      { ret := if q = Z_STREAM_END then Z_OK else Z_DATA_ERROR,
        outmsg := some (ch.flatten ++ List.replicate (st'.outlen - ch.flatten.length) 0),
        outlen := st'.outlen, chain := ch, slicesFed := st'.fed,
        sessionClosed := false,
        fragsLeaked := st'.nodes - ch.length, dataLeaked := 0 } := by
  rw [decode_message]
  simp only [h]

/-- Surface of `decode_message` when an `inflate` call hits the error
`switch`: the function returns the mapped code at once, `*outmsg` is never
written, `inflateEnd` has been called, and nothing is freed
(gstplugin.c:296-305). -/
theorem decode_message_fatal (eff : Nat → FeedEffect) (src : List Nat)
    (outlen0 : Nat) (retInit : Int) (c : Int) (st1 : LoopSt)
    (h : decodeLoop eff src (decodeInit outlen0 retInit) = LoopOut.fatal c st1) :
    decode_message eff src outlen0 retInit =
      { ret := c, outmsg := none, outlen := st1.outlen, chain := st1.doneFrags,
        slicesFed := st1.fed, sessionClosed := true,
        fragsLeaked := st1.nodes, dataLeaked := st1.datas } := by
  rw [decode_message]
  simp only [h]

/-- With no injected codes the outer loop never aborts through the error
`switch`. -/
theorem decodeLoop_no_fatal (eff : Nat → FeedEffect)
    (hfa : ∀ j, (eff j).fatalAt = none) (remainder : List Nat) (st : LoopSt) :
    ∀ c st1, decodeLoop eff remainder st = LoopOut.fatal c st1 → False := by
  induction remainder, st using decodeLoop.induct eff with
  | case1 remainder st hemp =>
    intro c st1 h
    rw [decodeLoop, if_pos hemp] at h
    exact LoopOut.noConfusion h
  | case2 remainder st hemp c fulls calls hdrain =>
    intro c1 st1 h
    obtain ⟨n, c0, hfa1, -, -⟩ := drain_fatal_spec _ _ _ _ _ _ _ _ _ hdrain
    rw [hfa st.fed] at hfa1
    exact Option.noConfusion hfa1
  | case3 remainder st hemp fulls cur pl calls hdrain =>
    intro c1 st1 h
    rw [decodeLoop, if_neg hemp] at h
    simp only [hdrain, if_true] at h
    exact LoopOut.noConfusion h
  | case4 remainder st hemp r fulls cur pl calls hdrain hr ih =>
    intro c1 st1 h
    rw [decodeLoop, if_neg hemp] at h
    simp only [hdrain] at h
    rw [if_neg hr] at h
    exact ih c1 st1 h

/-- Every fragment of the final chain holds at most `CHUNK` bytes (full
fragments are closed at exactly `CHUNK`, current fragments stay strictly
below, and the node left by the final break is empty). -/
theorem decodeLoop_bounded (eff : Nat → FeedEffect) (remainder : List Nat)
    (st : LoopSt) :
    ∀ q ch st', decodeLoop eff remainder st = LoopOut.finished q ch st' →
      (∀ f ∈ st.doneFrags, f.length ≤ CHUNK) →
      ∀ f ∈ ch, f.length ≤ CHUNK := by
  induction remainder, st using decodeLoop.induct eff with
  | case1 remainder st hemp =>
    intro q ch st' h hb
    rw [decodeLoop, if_pos hemp] at h
    injection h with h0 h1 h2
    intro f hf
    rw [← h1] at hf
    rcases List.mem_append.mp hf with hf | hf
    · exact hb f hf
    · rcases List.mem_singleton.mp hf with rfl; simp
  | case2 remainder st hemp c fulls calls hdrain =>
    intro q ch st' h hb
    rw [decodeLoop, if_neg hemp] at h
    simp only [hdrain] at h
    exact LoopOut.noConfusion h
  | case3 remainder st hemp fulls cur pl calls hdrain =>
    intro q ch st' h hb
    rw [decodeLoop, if_neg hemp] at h
    simp only [hdrain, if_true] at h
    injection h with h0 h1 h2
    obtain ⟨t, ht1, ht2, ht3, ht4⟩ := drain_done_spec _ _ _ _ _ _ _ _ _ _ _ hdrain
    intro f hf
    rw [← h1] at hf
    rcases List.mem_append.mp hf with hf | hf
    · rcases List.mem_append.mp hf with hf | hf
      · exact hb f hf
      · rw [ht1] at hf
        simp only [List.nil_append] at hf
        rw [ht3 f hf]
    · rcases List.mem_singleton.mp hf with rfl; omega
  | case4 remainder st hemp r fulls cur pl calls hdrain hr ih =>
    intro q ch st' h hb
    rw [decodeLoop, if_neg hemp] at h
    simp only [hdrain] at h
    rw [if_neg hr] at h
    obtain ⟨t, ht1, ht2, ht3, ht4⟩ := drain_done_spec _ _ _ _ _ _ _ _ _ _ _ hdrain
    refine ih q ch st' h ?_
    intro f hf
    rcases List.mem_append.mp hf with hf | hf
    · rcases List.mem_append.mp hf with hf | hf
      · exact hb f hf
      · rw [ht1] at hf
        simp only [List.nil_append] at hf
        rw [ht3 f hf]
    · rcases List.mem_singleton.mp hf with rfl; omega

theorem take_chunk_all (l : List Nat) (h : l.length ≤ CHUNK) : l.take CHUNK = l :=
  List.take_of_length_le h

/-- C1: for every byte sequence `X`, decoding the gzip compression of `X`
with `decode_message` returns exactly `X`.  The inflate engine is external,
so it is spec-modelled: for any nonempty compressed input `src` and any
engine behaviour consistent with decompressing `src` to `X` — no fatal
condition, the logical stream end signalled exactly at the last input slice,
and the feeds' decoded outputs concatenating to `X` in order, however the
engine chooses to batch them — the call returns `Z_OK` and the bytes written
through the out-parameters are exactly `X`.  `X` is arbitrary, covering
lengths `0`, `1`, `CHUNK - 1`, `CHUNK`, `CHUNK + 1` and all multiples of
`CHUNK`. -/
theorem C1_roundtrip (X src : List Nat) (eff : Nat → FeedEffect) (retInit : Int)
    (hsrc : src ≠ [])
    (hfa : ∀ k, (eff k).fatalAt = none)
    (hend : ∀ k, ((eff k).isEnd = true ↔ k = numSlices src - 1))
    (hout : ((List.range (numSlices src)).map fun k => (eff k).out).flatten = X) :
    (decode_message eff src 0 retInit).ret = Z_OK ∧
    (decode_message eff src 0 retInit).outmsg = some X ∧
    (decode_message eff src 0 retInit).outlen = X.length := by
  obtain ⟨ch, st', hLoop, hFlat⟩ :=
    decodeLoop_complete eff src (decodeInit 0 retInit) hsrc rfl rfl
      (by intro j; simpa [decodeInit] using hfa j)
      (by intro j; simpa [decodeInit] using hend j)
  have hFlat' : ch.flatten = X := by
    rw [hFlat]
    simp only [decodeInit, List.flatten_nil, List.nil_append, Nat.zero_add]
    exact hout
  obtain ⟨t, ht1, ht2⟩ := decodeLoop_acct eff src (decodeInit 0 retInit) _ ch st' hLoop
  have ht1' : ch.flatten = t := by simpa [decodeInit] using ht1
  have hlen : st'.outlen = X.length := by
    have h2 : st'.outlen = t.length := by simpa [decodeInit] using ht2
    rw [h2, ← ht1', hFlat']
  rw [decode_message_finished _ _ _ _ _ _ _ hLoop]
  refine ⟨by simp, ?_, by simpa using hlen⟩
  simp only [hFlat', hlen, Nat.sub_self, List.replicate_zero, List.append_nil]

/-- C2 (code bug): on empty input the outer loop breaks before any `inflate`
call, so the local `ret` is read uninitialized at `return ret == Z_STREAM_END
? Z_OK : Z_DATA_ERROR` — undefined behaviour in the C, modelled by the
indeterminate initial value `retInit`.  For every value other than
`Z_STREAM_END` the call returns `Z_DATA_ERROR`, not success, even though the
result written is empty (`g_malloc0 (*outlen)` of the zero-padded initial
length), no slice is fed and nothing is leaked. -/
theorem C2_empty_input (eff : Nat → FeedEffect) (outlen0 : Nat) (retInit : Int)
    (hret : retInit ≠ Z_STREAM_END) :
    (decode_message eff [] outlen0 retInit).ret = Z_DATA_ERROR ∧
    (decode_message eff [] outlen0 retInit).ret ≠ Z_OK ∧
    (decode_message eff [] outlen0 retInit).outmsg =
      some (List.replicate outlen0 0) ∧
    (decode_message eff [] outlen0 retInit).slicesFed = 0 ∧
    (decode_message eff [] outlen0 retInit).fragsLeaked = 0 := by
  have hLoop : decodeLoop eff [] (decodeInit outlen0 retInit) =
      LoopOut.finished retInit ([] ++ [[]]) (decodeInit outlen0 retInit) := by
    rw [decodeLoop, if_pos (by simp)]
    rfl
  rw [decode_message_finished _ _ _ _ _ _ _ hLoop]
  refine ⟨by simp [if_neg hret], by simp [if_neg hret]; decide, ?_, rfl, rfl⟩
  simp [decodeInit]

/-- C3: when the input is exhausted before the engine ever signals the
stream end (a truncated stream: no fatal condition, no stream-end on any
feed), `decode_message` returns `Z_DATA_ERROR` — the code's rendering of the
`Incomplete` outcome at the final `return` — and never `Z_OK`, even though
partial output was produced.  `retInit ≠ Z_STREAM_END` renders the
uninitialized `ret` of the empty-input run. -/
theorem C3_truncated_incomplete (eff : Nat → FeedEffect) (src : List Nat)
    (outlen0 : Nat) (retInit : Int)
    (hfa : ∀ k, (eff k).fatalAt = none)
    (hend : ∀ k, (eff k).isEnd = false)
    (hret : retInit ≠ Z_STREAM_END) :
    (decode_message eff src outlen0 retInit).ret = Z_DATA_ERROR ∧
    (decode_message eff src outlen0 retInit).ret ≠ Z_OK := by
  cases hcase : decodeLoop eff src (decodeInit outlen0 retInit) with
  | fatal c st1 =>
    exact absurd hcase (fun h => decodeLoop_no_fatal eff hfa _ _ c st1 h)
  | finished q ch st' =>
    have hq : q ≠ Z_STREAM_END :=
      decodeLoop_no_end eff hfa hend src (decodeInit outlen0 retInit)
        q ch st' rfl hret hcase
    rw [decode_message_finished _ _ _ _ _ _ _ hcase]
    exact ⟨by simp [if_neg hq], by simp [if_neg hq]; decide⟩

/-- C4: whenever an `inflate` call of the current feed reports a fatal
condition, the call aborts immediately: the loop result is `fatal` with no
further slice fed (`fed` advances only past the current slice, whatever input
remains), the code comes from the oracle and is one of the four codes of the
error `switch` with `Z_NEED_DICT` surfaced as `Z_DATA_ERROR`, and at the
`decode_message` surface the fatal code is returned as-is with `*outmsg`
untouched and the session released by `inflateEnd`. -/
theorem C4_fatal_abort (eff : Nat → FeedEffect) (r : List Nat) (st : LoopSt)
    (c : Int) (fulls : List (List Nat)) (calls : Nat)
    (hslice : (r.take CHUNK).isEmpty = false)
    (hdrain : drain (eff st.fed).fatalAt 0 (st.pend ++ (eff st.fed).out)
        (st.ended || (eff st.fed).isEnd) [] 0 = DrainOut.fatal c fulls calls) :
    (∃ st1, decodeLoop eff r st = LoopOut.fatal c st1 ∧ st1.fed = st.fed + 1) ∧
    (∃ n c0, (eff st.fed).fatalAt = some (n, c0) ∧ isFatalCode c0 = true ∧
      c = if c0 = Z_NEED_DICT then Z_DATA_ERROR else c0) ∧
    (∀ src outlen0 retInit c1 st2,
      decodeLoop eff src (decodeInit outlen0 retInit) = LoopOut.fatal c1 st2 →
      (decode_message eff src outlen0 retInit).ret = c1 ∧
      (decode_message eff src outlen0 retInit).outmsg = none ∧
      (decode_message eff src outlen0 retInit).sessionClosed = true ∧
      (decode_message eff src outlen0 retInit).slicesFed = st2.fed) := by
  have hstep : decodeLoop eff r st =
      LoopOut.fatal c
        { pend := [], ended := st.ended || (eff st.fed).isEnd,
          doneFrags := st.doneFrags ++ fulls,
          outlen := st.outlen + (fulls.map List.length).sum,
          nodes := st.nodes + fulls.length,
          datas := st.datas + calls,
          fed := st.fed + 1, ret := c } := by
    rw [decodeLoop, if_neg (by simp [hslice])]
    simp only [hdrain]
  refine ⟨⟨_, hstep, rfl⟩, ?_, ?_⟩
  · exact drain_fatal_spec _ _ _ _ _ _ _ _ _ hdrain
  · intro src outlen0 retInit c1 st2 h
    rw [decode_message_fatal _ _ _ _ _ _ h]
    exact ⟨rfl, rfl, rfl, rfl⟩

/-- C9: if the engine signals the stream end on the current feed's drain, the
outer loop stops at once — only this slice was fed, however much input
remains (trailing bytes after the logical stream end are ignored) — and the
run is reported as success: a loop exit through `Z_STREAM_END` makes
`decode_message` return `Z_OK`. -/
theorem C9_early_end_success (eff : Nat → FeedEffect) (r : List Nat)
    (st : LoopSt) (fulls : List (List Nat)) (cur pl : List Nat) (calls : Nat)
    (hslice : (r.take CHUNK).isEmpty = false)
    (hdrain : drain (eff st.fed).fatalAt 0 (st.pend ++ (eff st.fed).out)
        (st.ended || (eff st.fed).isEnd) [] 0 =
        DrainOut.done Z_STREAM_END fulls cur pl calls) :
    (∃ st1, decodeLoop eff r st =
        LoopOut.finished Z_STREAM_END (st.doneFrags ++ fulls ++ [cur]) st1 ∧
      st1.fed = st.fed + 1) ∧
    (∀ src outlen0 retInit ch st2,
      decodeLoop eff src (decodeInit outlen0 retInit) =
          LoopOut.finished Z_STREAM_END ch st2 →
      (decode_message eff src outlen0 retInit).ret = Z_OK ∧
      (decode_message eff src outlen0 retInit).slicesFed = st2.fed) := by
  have hstep : decodeLoop eff r st =
      LoopOut.finished Z_STREAM_END (st.doneFrags ++ fulls ++ [cur])
        { pend := pl, ended := st.ended || (eff st.fed).isEnd,
          doneFrags := st.doneFrags ++ fulls,
          outlen := st.outlen + (fulls.map List.length).sum + cur.length,
          nodes := st.nodes + fulls.length,
          datas := st.datas + calls,
          fed := st.fed + 1, ret := Z_STREAM_END } := by
    rw [decodeLoop, if_neg (by simp [hslice])]
    simp only [hdrain, if_true]
  refine ⟨⟨_, hstep, rfl⟩, ?_⟩
  · intro src outlen0 retInit ch st2 h
    rw [decode_message_finished _ _ _ _ _ _ _ h]
    exact ⟨by simp, rfl⟩

/-- C7: on any run that reaches the final copy with `*outlen` equal to `0` on
entry (the documented calling convention, used by `gst_gzdec_process_data`),
the result buffer is exactly the in-order concatenation of the fragment
chain, its length is the accumulated `*outlen`, and that accumulated total
equals the sum of the fragment lengths walked by the final copy. -/
theorem C7_result_buffer (eff : Nat → FeedEffect) (src : List Nat)
    (retInit : Int) (m : List Nat)
    (hs : (decode_message eff src 0 retInit).outmsg = some m) :
    m = (decode_message eff src 0 retInit).chain.flatten ∧
    m.length = (decode_message eff src 0 retInit).outlen ∧
    (decode_message eff src 0 retInit).outlen =
      ((decode_message eff src 0 retInit).chain.map List.length).sum := by
  cases hcase : decodeLoop eff src (decodeInit 0 retInit) with
  | fatal c st1 =>
    rw [decode_message_fatal _ _ _ _ _ _ hcase] at hs
    exact Option.noConfusion hs
  | finished q ch st' =>
    obtain ⟨t, ht1, ht2⟩ := decodeLoop_acct eff src (decodeInit 0 retInit) q ch st' hcase
    have ht1' : ch.flatten = t := by simpa [decodeInit] using ht1
    have hlen : st'.outlen = ch.flatten.length := by
      rw [ht1']
      simpa [decodeInit] using ht2
    rw [decode_message_finished _ _ _ _ _ _ _ hcase] at hs ⊢
    simp only [Option.some.injEq] at hs
    rw [hlen, Nat.sub_self, List.replicate_zero, List.append_nil] at hs
    refine ⟨by simpa using hs.symm, ?_, ?_⟩
    · simp only []
      rw [← hs, hlen]
    · simp only []
      rw [hlen, List.length_flatten]

/-- C10 (implicit): `decode_message` accumulates into the caller-supplied
`*outlen` without resetting it: on any run reaching the final copy the
reported length is the entry value plus the decoded byte count, the buffer is
the decoded bytes followed by `outlen0` zero bytes of over-allocation
(`g_malloc0` zero-fills), and whenever `*outlen` was nonzero on entry the
reported length strictly exceeds the bytes actually decoded — the result is
correct only under the precondition `*outlen = 0`. -/
theorem C10_outlen_not_reset (eff : Nat → FeedEffect) (src : List Nat)
    (outlen0 : Nat) (retInit : Int) (m : List Nat)
    (hs : (decode_message eff src outlen0 retInit).outmsg = some m) :
    (decode_message eff src outlen0 retInit).outlen =
      outlen0 + (decode_message eff src outlen0 retInit).chain.flatten.length ∧
    m = (decode_message eff src outlen0 retInit).chain.flatten ++
      List.replicate outlen0 0 ∧
    (0 < outlen0 →
      (decode_message eff src outlen0 retInit).chain.flatten.length <
        (decode_message eff src outlen0 retInit).outlen) := by
  cases hcase : decodeLoop eff src (decodeInit outlen0 retInit) with
  | fatal c st1 =>
    rw [decode_message_fatal _ _ _ _ _ _ hcase] at hs
    exact Option.noConfusion hs
  | finished q ch st' =>
    obtain ⟨t, ht1, ht2⟩ :=
      decodeLoop_acct eff src (decodeInit outlen0 retInit) q ch st' hcase
    have ht1' : ch.flatten = t := by simpa [decodeInit] using ht1
    have hlen : st'.outlen = outlen0 + ch.flatten.length := by
      rw [ht1']
      simpa [decodeInit, Nat.add_comm] using ht2
    rw [decode_message_finished _ _ _ _ _ _ _ hcase] at hs ⊢
    simp only [Option.some.injEq] at hs
    refine ⟨by simpa using hlen, ?_, ?_⟩
    · simp only []
      rw [← hs, hlen, Nat.add_sub_cancel]
    · intro hpos
      simp only []
      omega

/-- C6 (amended): after a `decode_message` call that reaches the final copy
(`*outmsg` written), no fragment node or data buffer remains allocated — the
walk frees exactly the nodes of the chain.  (On the fatal path, by contrast,
nothing is freed; see the counterexample.) -/
theorem C6_no_leak_on_success (eff : Nat → FeedEffect) (src : List Nat)
    (outlen0 : Nat) (retInit : Int)
    (hs : (decode_message eff src outlen0 retInit).outmsg ≠ none) :
    (decode_message eff src outlen0 retInit).fragsLeaked = 0 ∧
    (decode_message eff src outlen0 retInit).dataLeaked = 0 := by
  cases hcase : decodeLoop eff src (decodeInit outlen0 retInit) with
  | fatal c st1 =>
    rw [decode_message_fatal _ _ _ _ _ _ hcase] at hs
    simp at hs
  | finished q ch st' =>
    have hn : st'.nodes = ch.length :=
      decodeLoop_nodes eff src (decodeInit outlen0 retInit) q ch st' hcase rfl
    rw [decode_message_finished _ _ _ _ _ _ _ hcase]
    exact ⟨by simp [hn], rfl⟩

/-- C8 (amended): every fragment the drain loop completes because the output
buffer filled holds exactly `CHUNK` bytes and the fragment left current at
the end of a feed holds strictly fewer — so within one feed's fragments all
but the last hold exactly `CHUNK` bytes — and every fragment of the final
chain holds at most `CHUNK` bytes; but a fragment advanced past at the end of
a feed (because `ret != Z_STREAM_END` with input remaining) may hold fewer
than `CHUNK` bytes while not being the last fragment of the chain. -/
theorem C8_fragment_sizes :
    (∀ fa pend e r fs cur pl cl,
        drain fa 0 pend e [] 0 = DrainOut.done r fs cur pl cl →
        (∀ f ∈ fs, f.length = CHUNK) ∧ cur.length < CHUNK) ∧
    (∀ eff rem st q ch st', decodeLoop eff rem st = LoopOut.finished q ch st' →
        (∀ f ∈ st.doneFrags, f.length ≤ CHUNK) →
        ∀ f ∈ ch, f.length ≤ CHUNK) := by
  constructor
  · intro fa pend e r fs cur pl cl h
    obtain ⟨t, ht1, ht2, ht3, ht4⟩ := drain_done_spec _ _ _ _ _ _ _ _ _ _ _ h
    refine ⟨?_, ht4⟩
    intro f hf
    rw [ht1] at hf
    simp only [List.nil_append] at hf
    exact ht3 f hf
  · exact fun eff rem st q ch st' h hb => decodeLoop_bounded eff rem st q ch st' h hb

/-- C5 (amended): `decode_message` itself only reads the input blob (the
embedding passes it by value), but `gst_gzdec_process_data` does not leave it
unchanged: after the call the mapped input buffer holds `0xff` in every byte
(`memset (info.data, 0xff, info.size)` before unmapping), so the contents are
preserved only in the degenerate case where every byte already was `0xff`. -/
theorem C5_memset_input (eff : Nat → FeedEffect) (retInit : Int)
    (buf : List Nat) :
    (gst_gzdec_process_data eff retInit buf).srcAfter =
      List.replicate buf.length 255 ∧
    ((gst_gzdec_process_data eff retInit buf).srcAfter = buf ↔
      buf = List.replicate buf.length 255) := by
  refine ⟨rfl, ?_⟩
  show List.replicate buf.length 255 = buf ↔ buf = List.replicate buf.length 255
  exact eq_comm

/-- Witness for C1: decompressing the one-slice input `[9]` to `X = [1, 2]`. -/
theorem C1_roundtrip_witness :
    (decode_message (fun k => { out := if k = 0 then [1, 2] else [], isEnd := k == 0, fatalAt := none }) [9] 0 0).ret = Z_OK ∧
    (decode_message (fun k => { out := if k = 0 then [1, 2] else [], isEnd := k == 0, fatalAt := none }) [9] 0 0).outmsg = some [1, 2] ∧
    (decode_message (fun k => { out := if k = 0 then [1, 2] else [], isEnd := k == 0, fatalAt := none }) [9] 0 0).outlen = [1, 2].length := by
  have hns : numSlices [9] = 1 := numSlices_small [9] (by simp) (by decide)
  exact C1_roundtrip [1, 2] [9] _ 0 (by simp) (fun k => rfl)
    (by intro k; rw [hns]; simp) (by rw [hns]; decide)

/-- Witness for C2: empty input, `*outlen = 0` on entry, `ret`'s garbage
value rendered as `0`. -/
theorem C2_empty_input_witness :
    (decode_message (fun _ => { out := [], isEnd := false, fatalAt := none })
        [] 0 0).ret = Z_DATA_ERROR ∧
    (decode_message (fun _ => { out := [], isEnd := false, fatalAt := none })
        [] 0 0).ret ≠ Z_OK ∧
    (decode_message (fun _ => { out := [], isEnd := false, fatalAt := none })
        [] 0 0).outmsg = some (List.replicate 0 0) ∧
    (decode_message (fun _ => { out := [], isEnd := false, fatalAt := none })
        [] 0 0).slicesFed = 0 ∧
    (decode_message (fun _ => { out := [], isEnd := false, fatalAt := none })
        [] 0 0).fragsLeaked = 0 :=
  C2_empty_input _ 0 0 (by decide)

/-- Witness for C3: a one-byte truncated input whose feed decodes to one
byte without reaching the stream end. -/
theorem C3_truncated_incomplete_witness :
    (decode_message (fun _ => { out := [1], isEnd := false, fatalAt := none })
        [9] 0 0).ret = Z_DATA_ERROR ∧
    (decode_message (fun _ => { out := [1], isEnd := false, fatalAt := none })
        [9] 0 0).ret ≠ Z_OK :=
  C3_truncated_incomplete _ [9] 0 0 (fun k => rfl) (fun k => rfl) (by decide)

/-- Witness for C4: the first `inflate` call reports `Z_NEED_DICT`; the loop
aborts at once with `Z_DATA_ERROR`. -/
theorem C4_fatal_abort_witness :
    ∃ st1, decodeLoop (fun _ => { out := [], isEnd := false, fatalAt := some (0, Z_NEED_DICT) }) [9] (decodeInit 0 0) =
      LoopOut.fatal Z_DATA_ERROR st1 ∧ st1.fed = (decodeInit 0 0).fed + 1 :=
  (C4_fatal_abort _ [9] (decodeInit 0 0) Z_DATA_ERROR [] 1
    (by rw [take_chunk_all [9] (by decide)]; rfl)
    (by show drain (some (0, Z_NEED_DICT)) 0 [] false [] 0 =
          DrainOut.fatal Z_DATA_ERROR [] 1
        rw [drain]
        simp [injected, isFatalCode, Z_NEED_DICT, Z_DATA_ERROR, Z_MEM_ERROR,
          Z_STREAM_ERROR])).1

/-- Witness for C9: the single feed signals the stream end after one byte of
output; the loop finishes successfully after that one slice. -/
theorem C9_early_end_success_witness :
    ∃ st1, decodeLoop (fun _ => { out := [7], isEnd := true, fatalAt := none })
        [9] (decodeInit 0 0) = LoopOut.finished Z_STREAM_END
          ((decodeInit 0 0).doneFrags ++ [] ++ [[7]]) st1 ∧
      st1.fed = (decodeInit 0 0).fed + 1 :=
  (C9_early_end_success _ [9] (decodeInit 0 0) [] [7] [] 1
    (by rw [take_chunk_all [9] (by decide)]; rfl)
    (by show drain none 0 [7] true [] 0 = DrainOut.done Z_STREAM_END [] [7] [] 1
        rw [drain]
        simp only [injected]
        rw [dif_neg (by decide)]
        simp)).1

/-- Witness for C7: a successful one-slice run decoding to `[1, 2]`. -/
theorem C7_result_buffer_witness :
    [1, 2] = (decode_message (fun _ => { out := [1, 2], isEnd := true, fatalAt := none }) [9] 0 0).chain.flatten ∧
    ([1, 2] : List Nat).length = (decode_message (fun _ => { out := [1, 2], isEnd := true, fatalAt := none }) [9] 0 0).outlen ∧
    (decode_message (fun _ => { out := [1, 2], isEnd := true, fatalAt := none }) [9] 0 0).outlen =
      ((decode_message (fun _ => { out := [1, 2], isEnd := true, fatalAt := none }) [9] 0 0).chain.map List.length).sum := by
  have hdrain : drain none 0 [1, 2] true [] 0 =
      DrainOut.done Z_STREAM_END [] [1, 2] [] 1 := by
    rw [drain]
    simp only [injected]
    rw [dif_neg (by decide)]
    simp
  have hLoop : decodeLoop (fun _ => { out := [1, 2], isEnd := true, fatalAt := none }) [9] (decodeInit 0 0) =
      LoopOut.finished Z_STREAM_END [[1, 2]]
        { pend := [], ended := true, doneFrags := [], outlen := 2, nodes := 1,
          datas := 1, fed := 1, ret := Z_STREAM_END } := by
    rw [decodeLoop, if_neg (by rw [take_chunk_all [9] (by decide)]; simp)]
    simp only [decodeInit, List.nil_append, Bool.false_or, hdrain, if_true]
    simp
  have hs : (decode_message (fun _ => { out := [1, 2], isEnd := true, fatalAt := none }) [9] 0 0).outmsg = some [1, 2] := by
    rw [decode_message_finished _ _ _ _ _ _ _ hLoop]
    simp
  exact C7_result_buffer _ [9] 0 [1, 2] hs

/-- Witness for C10: empty input with `*outlen = 3` on entry yields reported
length `3` for zero decoded bytes. -/
theorem C10_outlen_not_reset_witness :
    (decode_message (fun _ => { out := [], isEnd := false, fatalAt := none })
        [] 3 0).outlen = 3 + (decode_message (fun _ => { out := [], isEnd := false, fatalAt := none }) [] 3 0).chain.flatten.length ∧
    List.replicate 3 0 = (decode_message (fun _ => { out := [], isEnd := false, fatalAt := none }) [] 3 0).chain.flatten ++ List.replicate 3 0 ∧
    (0 < 3 → (decode_message (fun _ => { out := [], isEnd := false, fatalAt := none }) [] 3 0).chain.flatten.length <
      (decode_message (fun _ => { out := [], isEnd := false, fatalAt := none }) [] 3 0).outlen) := by
  have hLoop : decodeLoop (fun _ => { out := [], isEnd := false, fatalAt := none }) [] (decodeInit 3 0) =
      LoopOut.finished 0 ([] ++ [[]]) (decodeInit 3 0) := by
    rw [decodeLoop, if_pos (by simp)]
    rfl
  have hs : (decode_message (fun _ => { out := [], isEnd := false, fatalAt := none }) [] 3 0).outmsg = some (List.replicate 3 0) := by
    rw [decode_message_finished _ _ _ _ _ _ _ hLoop]
    simp [decodeInit]
  exact C10_outlen_not_reset _ [] 3 0 (List.replicate 3 0) hs

/-- Witness for C6 (amended): a successful empty-input run leaks nothing. -/
theorem C6_no_leak_on_success_witness :
    (decode_message (fun _ => { out := [], isEnd := false, fatalAt := none })
        [] 0 0).fragsLeaked = 0 ∧
    (decode_message (fun _ => { out := [], isEnd := false, fatalAt := none })
        [] 0 0).dataLeaked = 0 := by
  refine C6_no_leak_on_success _ [] 0 0 ?_
  have hLoop : decodeLoop (fun _ => { out := [], isEnd := false, fatalAt := none }) [] (decodeInit 0 0) =
      LoopOut.finished 0 ([] ++ [[]]) (decodeInit 0 0) := by
    rw [decodeLoop, if_pos (by simp)]
    rfl
  rw [decode_message_finished _ _ _ _ _ _ _ hLoop]
  simp

/-- Witness for C8 (amended): a drain that stops after a two-byte burst
completes no full fragment, and its current fragment is shorter than
`CHUNK`. -/
theorem C8_fragment_sizes_witness :
    (∀ f ∈ ([] : List (List Nat)), f.length = CHUNK) ∧
    ([1, 2] : List Nat).length < CHUNK :=
  C8_fragment_sizes.1 none [1, 2] true Z_STREAM_END [] [1, 2] [] 1
    (by rw [drain]
        simp only [injected]
        rw [dif_neg (by decide)]
        simp)

/-- C6 counterexample: a fatal `inflate` on a one-byte input returns with the
head `ll_buffer` node and the freshly allocated `CHUNK` data buffer still
allocated — fragments are leaked on the failure path, contrary to the claim
that every fragment allocated before a failure is released. -/
theorem C6_leak_on_fatal :
    0 < (decode_message (fun _ => { out := [], isEnd := false, fatalAt := some (0, Z_DATA_ERROR) }) [9] 0 0).fragsLeaked ∧
    0 < (decode_message (fun _ => { out := [], isEnd := false, fatalAt := some (0, Z_DATA_ERROR) }) [9] 0 0).dataLeaked := by
  have hdrain : drain (some (0, Z_DATA_ERROR)) 0 [] false [] 0 =
      DrainOut.fatal Z_DATA_ERROR [] 1 := by
    rw [drain]
    simp [injected, isFatalCode, Z_NEED_DICT, Z_DATA_ERROR, Z_MEM_ERROR,
      Z_STREAM_ERROR]
  have hLoop : decodeLoop (fun _ => { out := [], isEnd := false, fatalAt := some (0, Z_DATA_ERROR) }) [9] (decodeInit 0 0) =
      LoopOut.fatal Z_DATA_ERROR
        { pend := [], ended := false, doneFrags := [], outlen := 0,
          nodes := 1, datas := 1, fed := 1, ret := Z_DATA_ERROR } := by
    rw [decodeLoop, if_neg (by rw [take_chunk_all [9] (by decide)]; simp)]
    simp only [decodeInit, List.nil_append, Bool.false_or, hdrain]
    simp
  rw [decode_message_fatal _ _ _ _ _ _ hLoop]
  exact ⟨by decide, by decide⟩

/-- C8 counterexample: one feed yields five bytes without reaching the
stream end, the loop advances past that five-byte fragment, and the final
chain is `[[7, 7, 7, 7, 7], []]` — a non-last fragment holding fewer than
`CHUNK` bytes, contrary to the claim. -/
theorem C8_short_nonlast_fragment :
    ¬(∀ f ∈ (decode_message (fun _ => { out := [7, 7, 7, 7, 7], isEnd := false, fatalAt := none }) [9] 0 0).chain.dropLast, f.length = CHUNK) := by
  have hdrain : drain none 0 [7, 7, 7, 7, 7] false [] 0 =
      DrainOut.done Z_OK [] [7, 7, 7, 7, 7] [] 1 := by
    rw [drain]
    simp only [injected]
    rw [dif_neg (by decide)]
    simp
  have hLoop : decodeLoop (fun _ => { out := [7, 7, 7, 7, 7], isEnd := false, fatalAt := none }) [9] (decodeInit 0 0) =
      LoopOut.finished Z_OK [[7, 7, 7, 7, 7], []]
        { pend := [], ended := false, doneFrags := [[7, 7, 7, 7, 7]],
          outlen := 5, nodes := 2, datas := 1, fed := 1, ret := Z_OK } := by
    rw [decodeLoop, if_neg (by rw [take_chunk_all [9] (by decide)]; simp)]
    simp only [decodeInit, List.nil_append, Bool.false_or, hdrain]
    rw [if_neg (by decide)]
    rw [List.drop_eq_nil_of_le (by decide)]
    rw [decodeLoop, if_pos (by simp)]
    simp
  intro hAll
  rw [decode_message_finished _ _ _ _ _ _ _ hLoop] at hAll
  have h5 := hAll [7, 7, 7, 7, 7] (by decide)
  exact absurd h5 (by decide)

/-- C5 counterexample: after `gst_gzdec_process_data` on the one-byte input
`[0]`, the mapped input buffer holds `0xff`, not its original contents — the
input blob is not left unchanged. -/
theorem C5_input_overwritten :
    (gst_gzdec_process_data (fun _ => { out := [], isEnd := false, fatalAt := none }) 0 [0]).srcAfter ≠ [0] := by
  decide

end Gzdec
